import Mathlib

/-!
goneovim: `editor/handleime.cpp`

A shallow embedding of the three queries of `handleime.cpp` over an
input-method event, and the properties of the specification checked
against them.

Conventions of the embedding.

* A C++ `int` value is a Lean `Int`. The only arithmetic the file performs
  on `int`s is the sum `a.start + a.length` of the Darwin query; it is taken
  as the 32-bit two's complement sum (`wrapInt32`).
* `QList<T>::size()` has return type `int`, so `int ret = attributes.size()`
  is the length of the list, as an `Int`.
* `QList<T>::at(i)` is defined for `0 <= i < size()` only. It is embedded as
  an `Option`-returning access, and every query returns `Option Int`:
  `none` stands for an out-of-range access.
-/

namespace HandleIme

/-! ## Data model -/

/-- Modelled from the spec: the toolkit's enumeration of attribute kinds
(`QInputMethodEvent::AttributeType`), declared in the toolkit's headers. The
spec gives the kinds as `Cursor`, `TextFormat`, or other toolkit-defined
kinds; the other kinds are told apart by a tag. -/
inductive AttributeType where
  | TextFormat : AttributeType
  | Cursor : AttributeType
  | Other (tag : Nat) : AttributeType
  deriving DecidableEq, Repr

/-- Modelled from the spec: the toolkit's attribute record
(`QInputMethodEvent::Attribute`), declared in the toolkit's headers, with the
fields the source reads: `type` (the spec's `kind`), `start` and `length`,
the last two of C++ type `int`. -/
structure Attribute where
  type : AttributeType
  start : Int
  length : Int
  deriving DecidableEq, Repr

/-- Modelled from the spec: the composition event (`QInputMethodEvent`), of
which the source reads `attributes()` only: an ordered sequence of attribute
records. -/
structure QInputMethodEvent where
  attributes : List Attribute
  deriving DecidableEq, Repr

/-- The value of a 32-bit two's complement `int` holding the integer `x`
modulo `2^32`. -/
def wrapInt32 (x : Int) : Int :=
  (x + 2147483648) % 4294967296 - 2147483648

/-- The access `attributes.at(i)` of a `QList`: defined when
`0 <= i < size()`, out of range otherwise. -/
def attributeAt (attributes : List Attribute) (i : Nat) : Option Attribute :=
  attributes[i]?

/-! ## The three queries -/

/-- Body of the loop of `selectionLengthInPreeditStrOnDarwin` at index `i`,
with `ret` the value of the variable `ret` before the iteration. -/
def selectionLengthInPreeditStrOnDarwinBody (event : QInputMethodEvent)
    (cursorpos : Int) (ret : Int) (i : Nat) : Option Int :=
  match attributeAt event.attributes i with
  | none => none
  | some a =>
    if a.type = AttributeType.TextFormat then
      if wrapInt32 (a.start + a.length) = cursorpos then
        some a.length
      else
        some ret
    else
      some ret

/-- The query `selectionLengthInPreeditStrOnDarwin(ptr, cursorpos)`: `ret`
starts as `attributes.size()` and the loop runs `i` over
`0, 1, ..., attributes.size() - 1`. -/
def selectionLengthInPreeditStrOnDarwin (event : QInputMethodEvent)
    (cursorpos : Int) : Option Int :=
  let attributes := event.attributes
  let ret : Int := attributes.length
  (List.range attributes.length).foldlM
    (selectionLengthInPreeditStrOnDarwinBody event cursorpos) ret

/-- Body of the loop of `selectionLengthInPreeditStr` at index `i`. -/
def selectionLengthInPreeditStrBody (event : QInputMethodEvent)
    (cursorpos : Int) (ret : Int) (i : Nat) : Option Int :=
  match attributeAt event.attributes i with
  | none => none
  | some a =>
    if a.type = AttributeType.TextFormat then
      if a.start = cursorpos then
        some a.length
      else
        some ret
    else
      some ret

/-- The query `selectionLengthInPreeditStr(ptr, cursorpos)`. -/
def selectionLengthInPreeditStr (event : QInputMethodEvent)
    (cursorpos : Int) : Option Int :=
  let attributes := event.attributes
  let ret : Int := attributes.length
  (List.range attributes.length).foldlM
    (selectionLengthInPreeditStrBody event cursorpos) ret

/-- Body of the loop of `cursorPosInPreeditStr` at index `i`. -/
def cursorPosInPreeditStrBody (event : QInputMethodEvent)
    (ret : Int) (i : Nat) : Option Int :=
  match attributeAt event.attributes i with
  | none => none
  | some a =>
    if a.type = AttributeType.Cursor then
      some a.start
    else
      some ret

/-- The query `cursorPosInPreeditStr(ptr)`. -/
def cursorPosInPreeditStr (event : QInputMethodEvent) : Option Int :=
  let attributes := event.attributes
  let ret : Int := attributes.length
  (List.range attributes.length).foldlM (cursorPosInPreeditStrBody event) ret

/-! ## The loops as one pass over the attributes -/

/-- One iteration of a last-wins loop on the attribute `a`: the kept value is
`f a` when `a` matches `p`, the previous value otherwise. -/
def keepMatch (p : Attribute → Bool) (f : Attribute → Int) (ret : Int)
    (a : Attribute) : Int :=
  if p a then f a else ret

/-- The attribute is of kind `Cursor` (line 72 of the source). -/
def isCursor (a : Attribute) : Bool :=
  decide (a.type = AttributeType.Cursor)

/-- The match condition of `selectionLengthInPreeditStr` (lines 45 and 47). -/
def startsAt (cursorpos : Int) (a : Attribute) : Bool :=
  decide (a.type = AttributeType.TextFormat) && decide (a.start = cursorpos)

/-- The match condition of `selectionLengthInPreeditStrOnDarwin` (lines 19
and 21). -/
def endsAt (cursorpos : Int) (a : Attribute) : Bool :=
  decide (a.type = AttributeType.TextFormat) &&
    decide (wrapInt32 (a.start + a.length) = cursorpos)

/-! ## The parameterized selection-length scan of the specification -/

/-- The boundary of a formatted range that the cursor position is compared
with: its start (section 4.2 of the specification) or its end (section 4.3). -/
inductive BoundaryMode where
  | fromStart : BoundaryMode
  | fromEnd : BoundaryMode
  deriving DecidableEq, Repr

/-- The boundary of the range of `a` that the mode selects: `start`, or
`start + length`, the sum of two `int`s as an `int`. -/
def BoundaryMode.boundary (mode : BoundaryMode) (a : Attribute) : Int :=
  match mode with
  | BoundaryMode.fromStart => a.start
  | BoundaryMode.fromEnd => wrapInt32 (a.start + a.length)

/-- The parameterized selection-length query, written from the words of the
specification (sections 4.2, 4.3 and the design note on the platform
variants), not from the source: among the attributes of kind `TextFormat`
whose boundary selected by the mode equals `cursorPos`, the length of the
last one; the attribute count if none matches. -/
def selectionLengthByMode (mode : BoundaryMode) (attributes : List Attribute)
    (cursorPos : Int) : Int :=
  match (attributes.filter (fun a =>
      decide (a.type = AttributeType.TextFormat) &&
        decide (mode.boundary a = cursorPos))).getLast? with
  | some a => a.length
  | none => attributes.length

/-- The attribute `a` with its start replaced by `start + length` (the sum of
two `int`s as an `int`), kind and length unchanged. -/
def startToEnd (a : Attribute) : Attribute :=
  { a with start := wrapInt32 (a.start + a.length) }

/-! ## The Darwin query over unbounded integers -/

/-- The match condition of `selectionLengthInPreeditStrOnDarwin` with the sum
`start + length` computed over the unbounded integers. -/
def endsAtUnbounded (cursorpos : Int) (a : Attribute) : Bool :=
  decide (a.type = AttributeType.TextFormat) &&
    decide (a.start + a.length = cursorpos)

/-- Body of the loop of the Darwin query, the sum `a.start + a.length`
computed over the unbounded integers and not on 32 bits. -/
def selectionLengthInPreeditStrOnDarwinUnboundedBody (event : QInputMethodEvent)
    (cursorpos : Int) (ret : Int) (i : Nat) : Option Int :=
  match attributeAt event.attributes i with
  | none => none
  | some a =>
    if a.type = AttributeType.TextFormat then
      if a.start + a.length = cursorpos then
        some a.length
      else
        some ret
    else
      some ret

/-- The query `selectionLengthInPreeditStrOnDarwin` with the sum
`a.start + a.length` computed over the unbounded integers: the reference the
32-bit computation is compared with. -/
def selectionLengthInPreeditStrOnDarwinUnbounded (event : QInputMethodEvent)
    (cursorpos : Int) : Option Int :=
  let attributes := event.attributes
  let ret : Int := attributes.length
  (List.range attributes.length).foldlM
    (selectionLengthInPreeditStrOnDarwinUnboundedBody event cursorpos) ret

/-! ## Lemmas on the loops -/

theorem foldlM_range_aux (g : Int → Attribute → Int) :
    ∀ (suf pre : List Attribute) (r : Int),
      (List.range' pre.length suf.length).foldlM
          (fun ret i => (attributeAt (pre ++ suf) i).map (g ret)) r
        = some (suf.foldl g r) := by
  intro suf
  induction suf with
  | nil => intro pre r; simp
  | cons a suf ih =>
    intro pre r
    have h := ih (pre ++ [a]) (g r a)
    simp only [List.append_assoc, List.singleton_append, List.length_append,
      List.length_singleton] at h
    simp only [List.length_cons, List.range'_succ, List.foldlM_cons, List.foldl_cons]
    have hat : attributeAt (pre ++ a :: suf) pre.length = some a := by
      unfold attributeAt
      rw [List.getElem?_append_right (Nat.le_refl _)]
      simp
    rw [hat]
    simpa using h

theorem foldlM_range_eq_foldl (g : Int → Attribute → Int) (xs : List Attribute)
    (r : Int) :
    (List.range xs.length).foldlM
        (fun ret i => (attributeAt xs i).map (g ret)) r
      = some (xs.foldl g r) := by
  have h := foldlM_range_aux g xs [] r
  simpa [List.range_eq_range'] using h

theorem cursorPosInPreeditStrBody_eq (event : QInputMethodEvent) :
    cursorPosInPreeditStrBody event
      = fun ret i => (attributeAt event.attributes i).map
          (keepMatch isCursor Attribute.start ret) := by
  funext ret i
  unfold cursorPosInPreeditStrBody
  cases attributeAt event.attributes i with
  | none => rfl
  | some a =>
    by_cases h : a.type = AttributeType.Cursor <;> simp [keepMatch, isCursor, h]

theorem selectionLengthInPreeditStrBody_eq (event : QInputMethodEvent) (c : Int) :
    selectionLengthInPreeditStrBody event c
      = fun ret i => (attributeAt event.attributes i).map
          (keepMatch (startsAt c) Attribute.length ret) := by
  funext ret i
  unfold selectionLengthInPreeditStrBody
  cases attributeAt event.attributes i with
  | none => rfl
  | some a =>
    by_cases h : a.type = AttributeType.TextFormat <;>
      by_cases h2 : a.start = c <;> simp [keepMatch, startsAt, h, h2]

theorem selectionLengthInPreeditStrOnDarwinBody_eq (event : QInputMethodEvent)
    (c : Int) :
    selectionLengthInPreeditStrOnDarwinBody event c
      = fun ret i => (attributeAt event.attributes i).map
          (keepMatch (endsAt c) Attribute.length ret) := by
  funext ret i
  unfold selectionLengthInPreeditStrOnDarwinBody
  cases attributeAt event.attributes i with
  | none => rfl
  | some a =>
    by_cases h : a.type = AttributeType.TextFormat <;>
      by_cases h2 : wrapInt32 (a.start + a.length) = c <;>
        simp [keepMatch, endsAt, h, h2]

/-- The cursor query is one last-wins pass over the attributes. -/
theorem cursorPosInPreeditStr_eq_foldl (xs : List Attribute) :
    cursorPosInPreeditStr ⟨xs⟩
      = some (xs.foldl (keepMatch isCursor Attribute.start) xs.length) := by
  unfold cursorPosInPreeditStr
  simp only [cursorPosInPreeditStrBody_eq]
  exact foldlM_range_eq_foldl _ xs _

/-- The selection-length query is one last-wins pass over the attributes. -/
theorem selectionLengthInPreeditStr_eq_foldl (xs : List Attribute) (c : Int) :
    selectionLengthInPreeditStr ⟨xs⟩ c
      = some (xs.foldl (keepMatch (startsAt c) Attribute.length) xs.length) := by
  unfold selectionLengthInPreeditStr
  simp only [selectionLengthInPreeditStrBody_eq]
  exact foldlM_range_eq_foldl _ xs _

/-- The Darwin selection-length query is one last-wins pass over the
attributes. -/
theorem selectionLengthInPreeditStrOnDarwin_eq_foldl (xs : List Attribute)
    (c : Int) :
    selectionLengthInPreeditStrOnDarwin ⟨xs⟩ c
      = some (xs.foldl (keepMatch (endsAt c) Attribute.length) xs.length) := by
  unfold selectionLengthInPreeditStrOnDarwin
  simp only [selectionLengthInPreeditStrOnDarwinBody_eq]
  exact foldlM_range_eq_foldl _ xs _

/-- A pass over attributes none of which matches keeps the initial value. -/
theorem foldl_keepMatch_of_no_match (p : Attribute → Bool) (f : Attribute → Int) :
    ∀ (xs : List Attribute) (r : Int), (∀ b ∈ xs, p b = false) →
      xs.foldl (keepMatch p f) r = r := by
  intro xs
  induction xs with
  | nil => intro r _; rfl
  | cons b xs ih =>
    intro r h
    have hb : p b = false := h b (List.mem_cons_self b xs)
    have hxs : ∀ b' ∈ xs, p b' = false := fun b' hb' => h b' (List.mem_cons_of_mem b hb')
    simp only [List.foldl_cons, keepMatch, hb, Bool.false_eq_true, if_false]
    exact ih r hxs

/-- A pass started at `v` over attributes whose matches all carry the value
`v` ends at `v`. -/
theorem foldl_keepMatch_of_same (p : Attribute → Bool) (f : Attribute → Int)
    (v : Int) :
    ∀ (xs : List Attribute), (∀ b ∈ xs, p b = true → f b = v) →
      xs.foldl (keepMatch p f) v = v := by
  intro xs
  induction xs with
  | nil => intro _; rfl
  | cons b xs ih =>
    intro h
    have hxs : ∀ b' ∈ xs, p b' = true → f b' = v :=
      fun b' hb' => h b' (List.mem_cons_of_mem b hb')
    have hstep : keepMatch p f v b = v := by
      unfold keepMatch
      by_cases hb : p b = true
      · simp [hb, h b (List.mem_cons_self b xs) hb]
      · simp [hb]
    simp only [List.foldl_cons, hstep]
    exact ih hxs

/-- Last wins: after a matching attribute `a`, followed only by attributes
whose matches carry the same value, the pass ends at the value of `a`,
whatever came before. -/
theorem foldl_keepMatch_append_cons (p : Attribute → Bool) (f : Attribute → Int)
    (pre post : List Attribute) (a : Attribute) (r : Int) (ha : p a = true)
    (hpost : ∀ b ∈ post, p b = true → f b = f a) :
    (pre ++ a :: post).foldl (keepMatch p f) r = f a := by
  simp only [List.foldl_append, List.foldl_cons]
  have hstep : keepMatch p f (pre.foldl (keepMatch p f) r) a = f a := by
    simp [keepMatch, ha]
  rw [hstep]
  exact foldl_keepMatch_of_same p f (f a) post hpost


/-- A sequence with a match splits at its last match. -/
theorem exists_last_match (p : Attribute → Bool) :
    ∀ (xs : List Attribute), (∃ a ∈ xs, p a = true) →
      ∃ pre a post, xs = pre ++ a :: post ∧ p a = true ∧ ∀ b ∈ post, p b = false := by
  intro xs
  induction xs with
  | nil => rintro ⟨a, ha, _⟩; cases ha
  | cons b xs ih =>
    intro hex
    by_cases htail : ∃ a ∈ xs, p a = true
    · obtain ⟨pre, a, post, hxs, ha, hpost⟩ := ih htail
      exact ⟨b :: pre, a, post, by rw [hxs]; rfl, ha, hpost⟩
    · have hnone : ∀ b' ∈ xs, p b' = false := by
        intro b' hb'
        cases hpb : p b' with
        | false => rfl
        | true => exact absurd ⟨b', hb', hpb⟩ htail
      obtain ⟨a, ha, hpa⟩ := hex
      rcases List.mem_cons.mp ha with rfl | hmem
      · exact ⟨[], a, xs, rfl, hpa, hnone⟩
      · exact absurd ⟨a, hmem, hpa⟩ htail

/-- The split at the last match, read on indices: the last match stands at
the index `pre.length` and no later index holds a match. -/
theorem last_match_index (p : Attribute → Bool) (pre post : List Attribute)
    (a : Attribute) (hpost : ∀ b ∈ post, p b = false) :
    ∃ h : pre.length < (pre ++ a :: post).length,
      (pre ++ a :: post).get ⟨pre.length, h⟩ = a ∧
      ∀ (j : Nat) (hj : j < (pre ++ a :: post).length), pre.length < j →
        p ((pre ++ a :: post).get ⟨j, hj⟩) = false := by
  have h : pre.length < (pre ++ a :: post).length := by simp
  refine ⟨h, ?_, ?_⟩
  · simp only [List.get_eq_getElem]
    rw [List.getElem_append_right (Nat.le_refl _)]
    simp
  · intro j hj hlt
    apply hpost
    have hj2 : j - pre.length - 1 < post.length := by
      simp only [List.length_append, List.length_cons] at hj
      omega
    have hget : (pre ++ a :: post).get ⟨j, hj⟩ = post.get ⟨j - pre.length - 1, hj2⟩ := by
      simp only [List.get_eq_getElem]
      rw [List.getElem_append_right (Nat.le_of_lt hlt)]
      obtain ⟨m, hm⟩ : ∃ m, j - pre.length = m + 1 := ⟨j - pre.length - 1, by omega⟩
      simp only [hm, List.getElem_cons_succ]
      congr 1
    rw [hget]
    exact List.get_mem post _ _

/-- Last wins, on indices: when some attribute matches, the pass ends at the
value of the match of greatest index. -/
theorem foldl_keepMatch_last_index (p : Attribute → Bool) (f : Attribute → Int)
    (xs : List Attribute) (r : Int) (hex : ∃ a ∈ xs, p a = true) :
    ∃ (i : Nat) (h : i < xs.length),
      p (xs.get ⟨i, h⟩) = true ∧
      (∀ (j : Nat) (hj : j < xs.length), i < j → p (xs.get ⟨j, hj⟩) = false) ∧
      xs.foldl (keepMatch p f) r = f (xs.get ⟨i, h⟩) := by
  obtain ⟨pre, a, post, rfl, ha, hpost⟩ := exists_last_match p xs hex
  obtain ⟨h, hget, hafter⟩ := last_match_index p pre post a hpost
  refine ⟨pre.length, h, ?_, hafter, ?_⟩
  · rw [hget]; exact ha
  · rw [hget]
    exact foldl_keepMatch_append_cons p f pre post a r ha
      (fun b hb hpb => by rw [hpost b hb] at hpb; cases hpb)

/-- A last-wins pass ends at the value of the last match, or at its initial
value when nothing matches. -/
theorem foldl_keepMatch_eq_getLast (p : Attribute → Bool) (f : Attribute → Int) :
    ∀ (xs : List Attribute) (r : Int),
      xs.foldl (keepMatch p f) r
        = match (xs.filter p).getLast? with
          | some a => f a
          | none => r := by
  intro xs
  induction xs with
  | nil => intro r; rfl
  | cons b xs ih =>
    intro r
    rw [List.foldl_cons, ih]
    by_cases hb : p b = true
    · rw [List.filter_cons_of_pos hb, List.getLast?_cons]
      cases (xs.filter p).getLast? with
      | none => simp [keepMatch, hb]
      | some a => simp
    · rw [List.filter_cons_of_neg hb]
      cases (xs.filter p).getLast? with
      | none => simp [keepMatch, hb]
      | some a => rfl

/-! ## Cursor position: one or no Cursor attribute -/

/-- C1: for every attribute sequence `xs` that contains exactly one attribute
of kind `Cursor`, of start offset `k` (any number of attributes of other
kinds stand before and after it), `cursorPosInPreeditStr` returns `k`. -/
theorem cursorPos_unique_cursor (xs : List Attribute) (a : Attribute) (k : Int)
    (hmem : a ∈ xs) (hkind : a.type = AttributeType.Cursor) (hstart : a.start = k)
    (hone : xs.countP (fun b => decide (b.type = AttributeType.Cursor)) = 1) :
    cursorPosInPreeditStr ⟨xs⟩ = some k := by
  obtain ⟨pre, post, rfl⟩ := List.append_of_mem hmem
  have ha : decide (a.type = AttributeType.Cursor) = true := by simp [hkind]
  have hcount : post.countP (fun b => decide (b.type = AttributeType.Cursor)) = 0 := by
    rw [List.countP_append, List.countP_cons] at hone
    simp only [ha, if_true] at hone
    omega
  have hpost : ∀ b ∈ post, isCursor b = true → b.start = a.start := by
    intro b hb hcur
    have hnot := (List.countP_eq_zero.mp hcount) b hb
    exact absurd hcur hnot
  rw [cursorPosInPreeditStr_eq_foldl, ← hstart]
  exact congrArg some
    (foldl_keepMatch_append_cons isCursor Attribute.start pre post a _
      (by simp [isCursor, hkind]) hpost)

/-- The scenario of C1: on the single attribute `{Cursor, start 2, length 0}`
the cursor query returns 2. -/
theorem cursorPos_unique_cursor_witness :
    cursorPosInPreeditStr ⟨[⟨AttributeType.Cursor, 2, 0⟩]⟩ = some 2 :=
  cursorPos_unique_cursor [⟨AttributeType.Cursor, 2, 0⟩] ⟨AttributeType.Cursor, 2, 0⟩ 2
    (by decide) (by decide) (by decide) (by decide)

/-- C2: for every attribute sequence that contains no attribute of kind
`Cursor`, `cursorPosInPreeditStr` returns the number of attributes of the
sequence, those of every kind counted. -/
theorem cursorPos_no_cursor (xs : List Attribute)
    (hnone : ∀ a ∈ xs, a.type ≠ AttributeType.Cursor) :
    cursorPosInPreeditStr ⟨xs⟩ = some (xs.length : Int) := by
  rw [cursorPosInPreeditStr_eq_foldl]
  exact congrArg some
    (foldl_keepMatch_of_no_match isCursor Attribute.start xs _
      (fun b hb => by simp [isCursor, hnone b hb]))

/-- Two attributes, none of kind `Cursor`: the cursor query returns 2. -/
theorem cursorPos_no_cursor_witness :
    cursorPosInPreeditStr
      ⟨[⟨AttributeType.TextFormat, 0, 3⟩, ⟨AttributeType.Other 4, 7, 1⟩]⟩ = some 2 :=
  cursorPos_no_cursor
    [⟨AttributeType.TextFormat, 0, 3⟩, ⟨AttributeType.Other 4, 7, 1⟩] (by decide)

/-! ## Selection length: a matching TextFormat attribute -/

/-- C3, as stated, fails: in `[{TextFormat, 0, 3}, {TextFormat, 0, 5}]` the
first attribute is of kind `TextFormat` and starts at `cursorpos = 0`, yet
`selectionLengthInPreeditStr` returns 5, the length of the second one, and
not its length 3. -/
theorem selectionLength_first_match_overwritten :
    (⟨AttributeType.TextFormat, 0, 3⟩ : Attribute)
        ∈ [⟨AttributeType.TextFormat, 0, 3⟩, ⟨AttributeType.TextFormat, 0, 5⟩]
      ∧ (⟨AttributeType.TextFormat, 0, 3⟩ : Attribute).type = AttributeType.TextFormat
      ∧ (⟨AttributeType.TextFormat, 0, 3⟩ : Attribute).start = 0
      ∧ selectionLengthInPreeditStr
          ⟨[⟨AttributeType.TextFormat, 0, 3⟩, ⟨AttributeType.TextFormat, 0, 5⟩]⟩ 0
        = some 5
      ∧ selectionLengthInPreeditStr
          ⟨[⟨AttributeType.TextFormat, 0, 3⟩, ⟨AttributeType.TextFormat, 0, 5⟩]⟩ 0
        ≠ some (⟨AttributeType.TextFormat, 0, 3⟩ : Attribute).length := by
  decide

/-- C3, amended: for every attribute sequence `pre ++ a :: post`, every
integer `c` and attribute `a` of kind `TextFormat` with `a.start = c`, if
every `TextFormat` attribute with start `c` that stands after `a` has the
length of `a` (so when `a` is the last or the only match),
`selectionLengthInPreeditStr` at `c` returns `a.length`. -/
theorem selectionLength_match (pre post : List Attribute) (a : Attribute) (c : Int)
    (hkind : a.type = AttributeType.TextFormat) (hstart : a.start = c)
    (hlater : ∀ b ∈ post, b.type = AttributeType.TextFormat → b.start = c →
      b.length = a.length) :
    selectionLengthInPreeditStr ⟨pre ++ a :: post⟩ c = some a.length := by
  rw [selectionLengthInPreeditStr_eq_foldl]
  refine congrArg some
    (foldl_keepMatch_append_cons (startsAt c) Attribute.length pre post a _
      (by simp [startsAt, hkind, hstart]) ?_)
  intro b hb hmatch
  simp only [startsAt, Bool.and_eq_true, decide_eq_true_eq] at hmatch
  exact hlater b hb hmatch.1 hmatch.2

/-- The scenario of C3: on the single attribute `{TextFormat, start 0,
length 3}` and `cursorPos = 0` the selection-length query returns 3. -/
theorem selectionLength_match_witness :
    selectionLengthInPreeditStr ⟨[] ++ ⟨AttributeType.TextFormat, 0, 3⟩ :: []⟩ 0
      = some 3 :=
  selectionLength_match [] [] ⟨AttributeType.TextFormat, 0, 3⟩ 0 (by decide) (by decide)
    (by decide)

/-- C4, as stated, fails: in `[{TextFormat, 0, 3}, {TextFormat, 1, 2}]` the
first attribute is of kind `TextFormat` and ends at `cursorpos = 3`, yet
`selectionLengthInPreeditStrOnDarwin` returns 2, the length of the second
one, and not its length 3. -/
theorem selectionLengthOnDarwin_first_match_overwritten :
    (⟨AttributeType.TextFormat, 0, 3⟩ : Attribute)
        ∈ [⟨AttributeType.TextFormat, 0, 3⟩, ⟨AttributeType.TextFormat, 1, 2⟩]
      ∧ (⟨AttributeType.TextFormat, 0, 3⟩ : Attribute).type = AttributeType.TextFormat
      ∧ (⟨AttributeType.TextFormat, 0, 3⟩ : Attribute).start
          + (⟨AttributeType.TextFormat, 0, 3⟩ : Attribute).length = 3
      ∧ selectionLengthInPreeditStrOnDarwin
          ⟨[⟨AttributeType.TextFormat, 0, 3⟩, ⟨AttributeType.TextFormat, 1, 2⟩]⟩ 3
        = some 2
      ∧ selectionLengthInPreeditStrOnDarwin
          ⟨[⟨AttributeType.TextFormat, 0, 3⟩, ⟨AttributeType.TextFormat, 1, 2⟩]⟩ 3
        ≠ some (⟨AttributeType.TextFormat, 0, 3⟩ : Attribute).length := by
  decide

/-- C4, amended: for every attribute sequence `pre ++ a :: post`, every
integer `c` and attribute `a` of kind `TextFormat` with `a.start + a.length`
equal to `c` (the sum as the code computes it, on 32 bits), if every
`TextFormat` attribute with `start + length` equal to `c` that stands after
`a` has the length of `a` (so when `a` is the last or the only match),
`selectionLengthInPreeditStrOnDarwin` at `c` returns `a.length`. -/
theorem selectionLengthOnDarwin_match (pre post : List Attribute) (a : Attribute)
    (c : Int) (hkind : a.type = AttributeType.TextFormat)
    (hend : wrapInt32 (a.start + a.length) = c)
    (hlater : ∀ b ∈ post, b.type = AttributeType.TextFormat →
      wrapInt32 (b.start + b.length) = c → b.length = a.length) :
    selectionLengthInPreeditStrOnDarwin ⟨pre ++ a :: post⟩ c = some a.length := by
  rw [selectionLengthInPreeditStrOnDarwin_eq_foldl]
  refine congrArg some
    (foldl_keepMatch_append_cons (endsAt c) Attribute.length pre post a _
      (by simp [endsAt, hkind, hend]) ?_)
  intro b hb hmatch
  simp only [endsAt, Bool.and_eq_true, decide_eq_true_eq] at hmatch
  exact hlater b hb hmatch.1 hmatch.2

/-- The scenario of C4: on the single attribute `{TextFormat, start 0,
length 3}` and `cursorPos = 3` the Darwin selection-length query returns 3. -/
theorem selectionLengthOnDarwin_match_witness :
    selectionLengthInPreeditStrOnDarwin
      ⟨[] ++ ⟨AttributeType.TextFormat, 0, 3⟩ :: []⟩ 3 = some 3 :=
  selectionLengthOnDarwin_match [] [] ⟨AttributeType.TextFormat, 0, 3⟩ 3 (by decide)
    (by decide) (by decide)

/-! ## Last match wins -/

/-- C5: for every attribute sequence with at least one `Cursor` attribute,
`cursorPosInPreeditStr` returns the start of the `Cursor` attribute of
greatest index: there is an index `i` holding a `Cursor` attribute, no index
after `i` holds one, and the result is the start of the attribute at `i`.
Earlier `Cursor` attributes and later attributes of other kinds are
arbitrary. -/
theorem cursorPos_last_cursor (xs : List Attribute)
    (hex : ∃ a ∈ xs, a.type = AttributeType.Cursor) :
    ∃ (i : Nat) (h : i < xs.length),
      (xs.get ⟨i, h⟩).type = AttributeType.Cursor ∧
      (∀ (j : Nat) (hj : j < xs.length), i < j →
        (xs.get ⟨j, hj⟩).type ≠ AttributeType.Cursor) ∧
      cursorPosInPreeditStr ⟨xs⟩ = some (xs.get ⟨i, h⟩).start := by
  have hex2 : ∃ a ∈ xs, isCursor a = true := by
    obtain ⟨a, ha, hk⟩ := hex
    exact ⟨a, ha, by simp [isCursor, hk]⟩
  obtain ⟨i, h, hi, hafter, hres⟩ :=
    foldl_keepMatch_last_index isCursor Attribute.start xs xs.length hex2
  refine ⟨i, h, ?_, ?_, ?_⟩
  · simpa [isCursor] using hi
  · intro j hj hlt
    simpa [isCursor] using hafter j hj hlt
  · rw [cursorPosInPreeditStr_eq_foldl, hres]

/-- Two `Cursor` attributes, of starts 1 and 4, and other attributes around
them: the hypothesis of C5 holds and its conclusion follows. -/
theorem cursorPos_last_cursor_witness :
    ∃ (i : Nat) (h : i < ([⟨AttributeType.Cursor, 1, 0⟩, ⟨AttributeType.TextFormat, 0, 3⟩,
        ⟨AttributeType.Cursor, 4, 0⟩, ⟨AttributeType.Other 2, 9, 9⟩] : List Attribute).length),
      (([⟨AttributeType.Cursor, 1, 0⟩, ⟨AttributeType.TextFormat, 0, 3⟩,
        ⟨AttributeType.Cursor, 4, 0⟩, ⟨AttributeType.Other 2, 9, 9⟩] : List Attribute).get
          ⟨i, h⟩).type = AttributeType.Cursor ∧
      (∀ (j : Nat) (hj : j < ([⟨AttributeType.Cursor, 1, 0⟩, ⟨AttributeType.TextFormat, 0, 3⟩,
        ⟨AttributeType.Cursor, 4, 0⟩, ⟨AttributeType.Other 2, 9, 9⟩] : List Attribute).length),
        i < j →
        (([⟨AttributeType.Cursor, 1, 0⟩, ⟨AttributeType.TextFormat, 0, 3⟩,
          ⟨AttributeType.Cursor, 4, 0⟩, ⟨AttributeType.Other 2, 9, 9⟩] : List Attribute).get
            ⟨j, hj⟩).type ≠ AttributeType.Cursor) ∧
      cursorPosInPreeditStr ⟨[⟨AttributeType.Cursor, 1, 0⟩, ⟨AttributeType.TextFormat, 0, 3⟩,
        ⟨AttributeType.Cursor, 4, 0⟩, ⟨AttributeType.Other 2, 9, 9⟩]⟩
        = some (([⟨AttributeType.Cursor, 1, 0⟩, ⟨AttributeType.TextFormat, 0, 3⟩,
          ⟨AttributeType.Cursor, 4, 0⟩, ⟨AttributeType.Other 2, 9, 9⟩] : List Attribute).get
            ⟨i, h⟩).start :=
  cursorPos_last_cursor
    [⟨AttributeType.Cursor, 1, 0⟩, ⟨AttributeType.TextFormat, 0, 3⟩,
      ⟨AttributeType.Cursor, 4, 0⟩, ⟨AttributeType.Other 2, 9, 9⟩]
    ⟨⟨AttributeType.Cursor, 1, 0⟩, by decide, by decide⟩

/-- C6: for every attribute sequence and integer `c`, when at least one
`TextFormat` attribute matches (`start = c` for
`selectionLengthInPreeditStr`; `start + length = c`, the sum as the code
computes it on 32 bits, for `selectionLengthInPreeditStrOnDarwin`), the
function returns the length of the match of greatest index: there is an index
`i` holding a match, no index after `i` holds one, and the result is the
length of the attribute at `i`. -/
theorem selectionLength_last_match (xs : List Attribute) (c : Int) :
    ((∃ a ∈ xs, a.type = AttributeType.TextFormat ∧ a.start = c) →
      ∃ (i : Nat) (h : i < xs.length),
        ((xs.get ⟨i, h⟩).type = AttributeType.TextFormat ∧ (xs.get ⟨i, h⟩).start = c) ∧
        (∀ (j : Nat) (hj : j < xs.length), i < j →
          ¬ ((xs.get ⟨j, hj⟩).type = AttributeType.TextFormat ∧
              (xs.get ⟨j, hj⟩).start = c)) ∧
        selectionLengthInPreeditStr ⟨xs⟩ c = some (xs.get ⟨i, h⟩).length) ∧
    ((∃ a ∈ xs, a.type = AttributeType.TextFormat ∧
        wrapInt32 (a.start + a.length) = c) →
      ∃ (i : Nat) (h : i < xs.length),
        ((xs.get ⟨i, h⟩).type = AttributeType.TextFormat ∧
          wrapInt32 ((xs.get ⟨i, h⟩).start + (xs.get ⟨i, h⟩).length) = c) ∧
        (∀ (j : Nat) (hj : j < xs.length), i < j →
          ¬ ((xs.get ⟨j, hj⟩).type = AttributeType.TextFormat ∧
              wrapInt32 ((xs.get ⟨j, hj⟩).start + (xs.get ⟨j, hj⟩).length) = c)) ∧
        selectionLengthInPreeditStrOnDarwin ⟨xs⟩ c = some (xs.get ⟨i, h⟩).length) := by
  constructor
  · intro hex
    have hex2 : ∃ a ∈ xs, startsAt c a = true := by
      obtain ⟨a, ha, hk, hs⟩ := hex
      exact ⟨a, ha, by simp [startsAt, hk, hs]⟩
    obtain ⟨i, h, hi, hafter, hres⟩ :=
      foldl_keepMatch_last_index (startsAt c) Attribute.length xs xs.length hex2
    refine ⟨i, h, ?_, ?_, ?_⟩
    · simpa [startsAt] using hi
    · intro j hj hlt
      have := hafter j hj hlt
      simpa [startsAt] using this
    · rw [selectionLengthInPreeditStr_eq_foldl, hres]
  · intro hex
    have hex2 : ∃ a ∈ xs, endsAt c a = true := by
      obtain ⟨a, ha, hk, hs⟩ := hex
      exact ⟨a, ha, by simp [endsAt, hk, hs]⟩
    obtain ⟨i, h, hi, hafter, hres⟩ :=
      foldl_keepMatch_last_index (endsAt c) Attribute.length xs xs.length hex2
    refine ⟨i, h, ?_, ?_, ?_⟩
    · simpa [endsAt] using hi
    · intro j hj hlt
      have := hafter j hj hlt
      simpa [endsAt] using this
    · rw [selectionLengthInPreeditStrOnDarwin_eq_foldl, hres]

/-- Two matches of different lengths for each query: on
`[{TextFormat, 0, 3}, {TextFormat, 0, 5}, {Cursor, 0, 0}]` at 0, and on
`[{TextFormat, 0, 3}, {TextFormat, 1, 2}, {Cursor, 3, 0}]` at 3, both
hypotheses of C6 hold, and the results are the lengths 5 and 2 of the later
matches. -/
theorem selectionLength_last_match_witness :
    (∃ (i : Nat) (h : i < ([⟨AttributeType.TextFormat, 0, 3⟩, ⟨AttributeType.TextFormat, 0, 5⟩,
          ⟨AttributeType.Cursor, 0, 0⟩] : List Attribute).length),
        selectionLengthInPreeditStr ⟨[⟨AttributeType.TextFormat, 0, 3⟩,
            ⟨AttributeType.TextFormat, 0, 5⟩, ⟨AttributeType.Cursor, 0, 0⟩]⟩ 0
          = some (([⟨AttributeType.TextFormat, 0, 3⟩, ⟨AttributeType.TextFormat, 0, 5⟩,
              ⟨AttributeType.Cursor, 0, 0⟩] : List Attribute).get ⟨i, h⟩).length) ∧
    (∃ (i : Nat) (h : i < ([⟨AttributeType.TextFormat, 0, 3⟩, ⟨AttributeType.TextFormat, 1, 2⟩,
          ⟨AttributeType.Cursor, 3, 0⟩] : List Attribute).length),
        selectionLengthInPreeditStrOnDarwin ⟨[⟨AttributeType.TextFormat, 0, 3⟩,
            ⟨AttributeType.TextFormat, 1, 2⟩, ⟨AttributeType.Cursor, 3, 0⟩]⟩ 3
          = some (([⟨AttributeType.TextFormat, 0, 3⟩, ⟨AttributeType.TextFormat, 1, 2⟩,
              ⟨AttributeType.Cursor, 3, 0⟩] : List Attribute).get ⟨i, h⟩).length) := by
  constructor
  · obtain ⟨i, h, _, _, hres⟩ :=
      (selectionLength_last_match
        [⟨AttributeType.TextFormat, 0, 3⟩, ⟨AttributeType.TextFormat, 0, 5⟩,
          ⟨AttributeType.Cursor, 0, 0⟩] 0).1
        ⟨⟨AttributeType.TextFormat, 0, 3⟩, by decide, by decide⟩
    exact ⟨i, h, hres⟩
  · obtain ⟨i, h, _, _, hres⟩ :=
      (selectionLength_last_match
        [⟨AttributeType.TextFormat, 0, 3⟩, ⟨AttributeType.TextFormat, 1, 2⟩,
          ⟨AttributeType.Cursor, 3, 0⟩] 3).2
        ⟨⟨AttributeType.TextFormat, 0, 3⟩, by decide, by decide⟩
    exact ⟨i, h, hres⟩

/-! ## No match: the attribute count -/

/-- C7: for every attribute sequence and integer `c` such that no attribute
of kind `TextFormat` satisfies the match condition (`start = c` for
`selectionLengthInPreeditStr`; `start + length = c`, the sum as the code
computes it on 32 bits, for `selectionLengthInPreeditStrOnDarwin`), the
function returns the number of attributes. Attributes of other kinds are
unconstrained: they never count as a match. -/
theorem selectionLength_no_match (xs : List Attribute) (c : Int) :
    ((∀ a ∈ xs, a.type = AttributeType.TextFormat → a.start ≠ c) →
      selectionLengthInPreeditStr ⟨xs⟩ c = some (xs.length : Int)) ∧
    ((∀ a ∈ xs, a.type = AttributeType.TextFormat →
        wrapInt32 (a.start + a.length) ≠ c) →
      selectionLengthInPreeditStrOnDarwin ⟨xs⟩ c = some (xs.length : Int)) := by
  constructor
  · intro hnone
    rw [selectionLengthInPreeditStr_eq_foldl]
    refine congrArg some
      (foldl_keepMatch_of_no_match (startsAt c) Attribute.length xs _ ?_)
    intro b hb
    by_cases hk : b.type = AttributeType.TextFormat
    · simp [startsAt, hk, hnone b hb hk]
    · simp [startsAt, hk]
  · intro hnone
    rw [selectionLengthInPreeditStrOnDarwin_eq_foldl]
    refine congrArg some
      (foldl_keepMatch_of_no_match (endsAt c) Attribute.length xs _ ?_)
    intro b hb
    by_cases hk : b.type = AttributeType.TextFormat
    · simp [endsAt, hk, hnone b hb hk]
    · simp [endsAt, hk]

/-- A `Cursor` attribute with `start = 0`, and with `start + length = 0`,
beside a `TextFormat` attribute that does not match 0: both queries return
the count 2. -/
theorem selectionLength_no_match_witness :
    selectionLengthInPreeditStr
        ⟨[⟨AttributeType.Cursor, 0, 0⟩, ⟨AttributeType.TextFormat, 1, 7⟩]⟩ 0 = some 2 ∧
    selectionLengthInPreeditStrOnDarwin
        ⟨[⟨AttributeType.Cursor, 0, 0⟩, ⟨AttributeType.TextFormat, 1, 7⟩]⟩ 0 = some 2 :=
  ⟨(selectionLength_no_match
      [⟨AttributeType.Cursor, 0, 0⟩, ⟨AttributeType.TextFormat, 1, 7⟩] 0).1 (by decide),
   (selectionLength_no_match
      [⟨AttributeType.Cursor, 0, 0⟩, ⟨AttributeType.TextFormat, 1, 7⟩] 0).2 (by decide)⟩

/-- C8: on the empty attribute sequence `cursorPosInPreeditStr` returns 0,
and for every integer `cursorpos` both `selectionLengthInPreeditStr` and
`selectionLengthInPreeditStrOnDarwin` return 0. -/
theorem empty_sequence_returns_zero :
    cursorPosInPreeditStr ⟨[]⟩ = some 0 ∧
    ∀ cursorpos : Int,
      selectionLengthInPreeditStr ⟨[]⟩ cursorpos = some 0 ∧
      selectionLengthInPreeditStrOnDarwin ⟨[]⟩ cursorpos = some 0 :=
  ⟨rfl, fun _ => ⟨rfl, rfl⟩⟩

/-! ## No failure -/

/-- C9: none of the three queries can fail. For every event and every integer
`cursorpos`: the access `at(i)` is out of range exactly when `size <= i`; at
every index `i` the loop runs over (`0 <= i < size` of the list that is
indexed) the access is in range and no loop body takes the out-of-range
branch; and each query returns an integer. -/
theorem queries_never_fail (event : QInputMethodEvent) (cursorpos : Int) :
    (∀ i : Nat, attributeAt event.attributes i = none ↔ event.attributes.length ≤ i) ∧
    (∀ i ∈ List.range event.attributes.length,
      (∃ a, attributeAt event.attributes i = some a) ∧
      ∀ ret : Int,
        cursorPosInPreeditStrBody event ret i ≠ none ∧
        selectionLengthInPreeditStrBody event cursorpos ret i ≠ none ∧
        selectionLengthInPreeditStrOnDarwinBody event cursorpos ret i ≠ none) ∧
    (∃ r : Int, cursorPosInPreeditStr event = some r) ∧
    (∃ r : Int, selectionLengthInPreeditStr event cursorpos = some r) ∧
    (∃ r : Int, selectionLengthInPreeditStrOnDarwin event cursorpos = some r) := by
  refine ⟨?_, ?_, ?_, ?_, ?_⟩
  · intro i
    simp [attributeAt]
  · intro i hi
    have hlt : i < event.attributes.length := List.mem_range.mp hi
    have hat : attributeAt event.attributes i = some (event.attributes.get ⟨i, hlt⟩) := by
      simp [attributeAt, List.getElem?_eq_getElem hlt]
    refine ⟨⟨_, hat⟩, ?_⟩
    intro ret
    rw [cursorPosInPreeditStrBody_eq, selectionLengthInPreeditStrBody_eq,
      selectionLengthInPreeditStrOnDarwinBody_eq]
    simp [hat]
  · exact ⟨_, cursorPosInPreeditStr_eq_foldl event.attributes⟩
  · exact ⟨_, selectionLengthInPreeditStr_eq_foldl event.attributes cursorpos⟩
  · exact ⟨_, selectionLengthInPreeditStrOnDarwin_eq_foldl event.attributes cursorpos⟩

/-! ## The two selection-length queries as one parameterized scan -/

/-- C10: the two selection-length queries differ in the match condition
only. For every attribute sequence `xs` and integer `c`,
`selectionLengthInPreeditStr` is the parameterized scan of the specification
in the mode `fromStart`, `selectionLengthInPreeditStrOnDarwin` is the same
scan in the mode `fromEnd`, and `selectionLengthInPreeditStrOnDarwin` on `xs`
equals `selectionLengthInPreeditStr` on `xs` with the start of every
attribute replaced by `start + length` (the sum of two `int`s as an `int`),
kind and length unchanged. -/
theorem selectionLength_boundary_modes (xs : List Attribute) (c : Int) :
    selectionLengthInPreeditStr ⟨xs⟩ c
      = some (selectionLengthByMode BoundaryMode.fromStart xs c) ∧
    selectionLengthInPreeditStrOnDarwin ⟨xs⟩ c
      = some (selectionLengthByMode BoundaryMode.fromEnd xs c) ∧
    selectionLengthInPreeditStrOnDarwin ⟨xs⟩ c
      = selectionLengthInPreeditStr ⟨xs.map startToEnd⟩ c := by
  refine ⟨?_, ?_, ?_⟩
  · rw [selectionLengthInPreeditStr_eq_foldl, foldl_keepMatch_eq_getLast]
    rfl
  · rw [selectionLengthInPreeditStrOnDarwin_eq_foldl, foldl_keepMatch_eq_getLast]
    rfl
  · rw [selectionLengthInPreeditStrOnDarwin_eq_foldl, selectionLengthInPreeditStr_eq_foldl,
      List.foldl_map, List.length_map]
    rfl

/-! ## Further lemmas on the last-wins pass -/

/-- A last-wins pass ends at its initial value or at the value of some
matching attribute of the sequence. -/
theorem foldl_keepMatch_init_or_mem (p : Attribute → Bool) (f : Attribute → Int)
    (xs : List Attribute) (r : Int) :
    xs.foldl (keepMatch p f) r = r ∨
      ∃ a ∈ xs, p a = true ∧ xs.foldl (keepMatch p f) r = f a := by
  rw [foldl_keepMatch_eq_getLast]
  cases h : (xs.filter p).getLast? with
  | none => exact Or.inl rfl
  | some a =>
    have hmem : a ∈ xs.filter p := List.mem_of_getLast?_eq_some h
    rw [List.mem_filter] at hmem
    exact Or.inr ⟨a, hmem.1, hmem.2, rfl⟩

/-- When some attribute matches, a last-wins pass gives the same value on the
sequence and on its matching attributes alone, whatever the initial values. -/
theorem foldl_keepMatch_filter (p : Attribute → Bool) (f : Attribute → Int)
    (xs : List Attribute) (r r2 : Int) (hex : ∃ a ∈ xs, p a = true) :
    xs.foldl (keepMatch p f) r = (xs.filter p).foldl (keepMatch p f) r2 := by
  rw [foldl_keepMatch_eq_getLast, foldl_keepMatch_eq_getLast]
  have hff : (xs.filter p).filter p = xs.filter p :=
    List.filter_eq_self.mpr (fun a ha => (List.mem_filter.mp ha).2)
  rw [hff]
  cases h : (xs.filter p).getLast? with
  | none =>
    obtain ⟨a, ha, hpa⟩ := hex
    have hnil : xs.filter p = [] := List.getLast?_eq_none_iff.mp h
    have hmem : a ∈ xs.filter p := List.mem_filter.mpr ⟨ha, hpa⟩
    rw [hnil] at hmem
    cases hmem
  | some a => rfl

/-- Two match conditions that agree on the attributes of the sequence give
the same last-wins pass. -/
theorem foldl_keepMatch_congr (p q : Attribute → Bool) (f : Attribute → Int) :
    ∀ (xs : List Attribute) (r : Int), (∀ a ∈ xs, p a = q a) →
      xs.foldl (keepMatch p f) r = xs.foldl (keepMatch q f) r := by
  intro xs
  induction xs with
  | nil => intro r _; rfl
  | cons b xs ih =>
    intro r h
    have hb : keepMatch p f r b = keepMatch q f r b := by
      simp [keepMatch, h b (List.mem_cons_self b xs)]
    rw [List.foldl_cons, List.foldl_cons, hb]
    exact ih _ (fun a ha => h a (List.mem_cons_of_mem b ha))

theorem selectionLengthInPreeditStrOnDarwinUnboundedBody_eq
    (event : QInputMethodEvent) (c : Int) :
    selectionLengthInPreeditStrOnDarwinUnboundedBody event c
      = fun ret i => (attributeAt event.attributes i).map
          (keepMatch (endsAtUnbounded c) Attribute.length ret) := by
  funext ret i
  unfold selectionLengthInPreeditStrOnDarwinUnboundedBody
  cases attributeAt event.attributes i with
  | none => rfl
  | some a =>
    by_cases h : a.type = AttributeType.TextFormat <;>
      by_cases h2 : a.start + a.length = c <;>
        simp [keepMatch, endsAtUnbounded, h, h2]

/-- The Darwin query over the unbounded integers is one last-wins pass over
the attributes. -/
theorem selectionLengthInPreeditStrOnDarwinUnbounded_eq_foldl (xs : List Attribute)
    (c : Int) :
    selectionLengthInPreeditStrOnDarwinUnbounded ⟨xs⟩ c
      = some (xs.foldl (keepMatch (endsAtUnbounded c) Attribute.length) xs.length) := by
  unfold selectionLengthInPreeditStrOnDarwinUnbounded
  simp only [selectionLengthInPreeditStrOnDarwinUnboundedBody_eq]
  exact foldlM_range_eq_foldl _ xs _

/-- On non-negative `int`s the 32-bit sum equals a non-negative `int` exactly
when the unbounded sum does. -/
theorem wrapInt32_add_eq_iff (s l c : Int) (hs0 : 0 ≤ s) (hs : s ≤ 2147483647)
    (hl0 : 0 ≤ l) (hl : l ≤ 2147483647) (hc0 : 0 ≤ c) (hc : c ≤ 2147483647) :
    wrapInt32 (s + l) = c ↔ s + l = c := by
  unfold wrapInt32
  omega

/-- The sum of two non-negative `int`s that overflows wraps to a negative
number. -/
theorem wrapInt32_add_neg (s l : Int) (hs0 : 0 ≤ s) (hs : s ≤ 2147483647)
    (hl0 : 0 ≤ l) (hl : l ≤ 2147483647) (hover : 2147483647 < s + l) :
    wrapInt32 (s + l) < 0 := by
  unfold wrapInt32
  omega

/-! ## The fallback value is not a sentinel -/

/-- C11: "not found" cannot be told from a found value. There are two
attribute sequences of the same length, one with a `Cursor` attribute and one
with none, on which `cursorPosInPreeditStr` returns the same integer; there
are an integer `c` and two sequences of the same length, one with a
`TextFormat` attribute of start `c` and one with none, on which
`selectionLengthInPreeditStr` returns the same integer. So no function of the
returned integer and the attribute count (and of `c`) decides whether a match
existed. The sequences of the proof are `[{Cursor, 1, 0}]` and
`[{TextFormat, 0, 1}]`, then `[{TextFormat, 0, 1}]` and `[{Cursor, 0, 0}]`
at `c = 0`; all four results are 1. -/
theorem not_found_indistinguishable :
    (∃ (xs ys : List Attribute) (r : Int),
      xs.length = ys.length ∧
      (∃ a ∈ xs, a.type = AttributeType.Cursor) ∧
      (∀ a ∈ ys, a.type ≠ AttributeType.Cursor) ∧
      cursorPosInPreeditStr ⟨xs⟩ = some r ∧ cursorPosInPreeditStr ⟨ys⟩ = some r) ∧
    (∃ (c : Int) (xs ys : List Attribute) (r : Int),
      xs.length = ys.length ∧
      (∃ a ∈ xs, a.type = AttributeType.TextFormat ∧ a.start = c) ∧
      (∀ a ∈ ys, ¬ (a.type = AttributeType.TextFormat ∧ a.start = c)) ∧
      selectionLengthInPreeditStr ⟨xs⟩ c = some r ∧
      selectionLengthInPreeditStr ⟨ys⟩ c = some r) ∧
    (¬ ∃ d : Int → Nat → Bool, ∀ (xs : List Attribute) (r : Int),
      cursorPosInPreeditStr ⟨xs⟩ = some r →
        (d r xs.length = true ↔ ∃ a ∈ xs, a.type = AttributeType.Cursor)) ∧
    (¬ ∃ d : Int → Int → Nat → Bool, ∀ (xs : List Attribute) (c r : Int),
      selectionLengthInPreeditStr ⟨xs⟩ c = some r →
        (d c r xs.length = true ↔
          ∃ a ∈ xs, a.type = AttributeType.TextFormat ∧ a.start = c)) := by
  refine ⟨?_, ?_, ?_, ?_⟩
  · exact ⟨[⟨AttributeType.Cursor, 1, 0⟩], [⟨AttributeType.TextFormat, 0, 1⟩], 1,
      rfl, by decide, by decide, by decide, by decide⟩
  · exact ⟨0, [⟨AttributeType.TextFormat, 0, 1⟩], [⟨AttributeType.Cursor, 0, 0⟩], 1,
      rfl, by decide, by decide, by decide, by decide⟩
  · rintro ⟨d, hd⟩
    have hfound := hd [⟨AttributeType.Cursor, 1, 0⟩] 1 (by decide)
    have hnot := hd [⟨AttributeType.TextFormat, 0, 1⟩] 1 (by decide)
    have hd1 : d 1 1 = true := hfound.mpr (by decide)
    have hex := hnot.mp hd1
    revert hex
    decide
  · rintro ⟨d, hd⟩
    have hfound := hd [⟨AttributeType.TextFormat, 0, 1⟩] 0 1 (by decide)
    have hnot := hd [⟨AttributeType.Cursor, 0, 0⟩] 0 1 (by decide)
    have hd1 : d 0 1 1 = true := hfound.mpr (by decide)
    have hex := hnot.mp hd1
    revert hex
    decide

/-! ## Every result comes from the input -/

/-- C12: every returned value comes from the input. For every attribute
sequence and every integer `c`, `cursorPosInPreeditStr` returns the attribute
count or the start of some `Cursor` attribute of the sequence, and each
selection-length query returns the attribute count or the length of some
`TextFormat` attribute of the sequence that meets its match condition at `c`
(`start = c`; `start + length = c`, the sum as the code computes it on 32
bits). Hence, when `0 <= start` and `0 <= length` for every attribute, all
three queries return a non-negative integer. -/
theorem results_come_from_input (xs : List Attribute) (c : Int) :
    (cursorPosInPreeditStr ⟨xs⟩ = some (xs.length : Int) ∨
      ∃ a ∈ xs, a.type = AttributeType.Cursor ∧
        cursorPosInPreeditStr ⟨xs⟩ = some a.start) ∧
    (selectionLengthInPreeditStr ⟨xs⟩ c = some (xs.length : Int) ∨
      ∃ a ∈ xs, (a.type = AttributeType.TextFormat ∧ a.start = c) ∧
        selectionLengthInPreeditStr ⟨xs⟩ c = some a.length) ∧
    (selectionLengthInPreeditStrOnDarwin ⟨xs⟩ c = some (xs.length : Int) ∨
      ∃ a ∈ xs, (a.type = AttributeType.TextFormat ∧
          wrapInt32 (a.start + a.length) = c) ∧
        selectionLengthInPreeditStrOnDarwin ⟨xs⟩ c = some a.length) ∧
    ((∀ a ∈ xs, 0 ≤ a.start ∧ 0 ≤ a.length) →
      (∃ r : Int, cursorPosInPreeditStr ⟨xs⟩ = some r ∧ 0 ≤ r) ∧
      (∃ r : Int, selectionLengthInPreeditStr ⟨xs⟩ c = some r ∧ 0 ≤ r) ∧
      (∃ r : Int, selectionLengthInPreeditStrOnDarwin ⟨xs⟩ c = some r ∧ 0 ≤ r)) := by
  have hcur := foldl_keepMatch_init_or_mem isCursor Attribute.start xs xs.length
  have hsel := foldl_keepMatch_init_or_mem (startsAt c) Attribute.length xs xs.length
  have hdar := foldl_keepMatch_init_or_mem (endsAt c) Attribute.length xs xs.length
  have hlen : (0 : Int) ≤ (xs.length : Int) := Int.ofNat_nonneg _
  refine ⟨?_, ?_, ?_, ?_⟩
  · rw [cursorPosInPreeditStr_eq_foldl]
    rcases hcur with h | ⟨a, ha, hp, h⟩
    · exact Or.inl (congrArg some h)
    · exact Or.inr ⟨a, ha, by simpa [isCursor] using hp, congrArg some h⟩
  · rw [selectionLengthInPreeditStr_eq_foldl]
    rcases hsel with h | ⟨a, ha, hp, h⟩
    · exact Or.inl (congrArg some h)
    · exact Or.inr ⟨a, ha, by simpa [startsAt] using hp, congrArg some h⟩
  · rw [selectionLengthInPreeditStrOnDarwin_eq_foldl]
    rcases hdar with h | ⟨a, ha, hp, h⟩
    · exact Or.inl (congrArg some h)
    · exact Or.inr ⟨a, ha, by simpa [endsAt] using hp, congrArg some h⟩
  · intro hinv
    refine ⟨⟨_, cursorPosInPreeditStr_eq_foldl xs, ?_⟩,
      ⟨_, selectionLengthInPreeditStr_eq_foldl xs c, ?_⟩,
      ⟨_, selectionLengthInPreeditStrOnDarwin_eq_foldl xs c, ?_⟩⟩
    · rcases hcur with h | ⟨a, ha, _, h⟩
      · rw [h]; exact hlen
      · rw [h]; exact (hinv a ha).1
    · rcases hsel with h | ⟨a, ha, _, h⟩
      · rw [h]; exact hlen
      · rw [h]; exact (hinv a ha).2
    · rcases hdar with h | ⟨a, ha, _, h⟩
      · rw [h]; exact hlen
      · rw [h]; exact (hinv a ha).2

/-- On `[{TextFormat, 0, 3}, {Cursor, 3, 0}]`, whose starts and lengths are
non-negative, the three queries at `cursorpos = 3` return non-negative
integers. -/
theorem results_come_from_input_witness :
    (∀ a ∈ ([⟨AttributeType.TextFormat, 0, 3⟩, ⟨AttributeType.Cursor, 3, 0⟩] :
        List Attribute), 0 ≤ a.start ∧ 0 ≤ a.length) ∧
    (∃ r : Int, cursorPosInPreeditStr
        ⟨[⟨AttributeType.TextFormat, 0, 3⟩, ⟨AttributeType.Cursor, 3, 0⟩]⟩ = some r ∧ 0 ≤ r) ∧
    (∃ r : Int, selectionLengthInPreeditStr
        ⟨[⟨AttributeType.TextFormat, 0, 3⟩, ⟨AttributeType.Cursor, 3, 0⟩]⟩ 3 = some r ∧
      0 ≤ r) ∧
    (∃ r : Int, selectionLengthInPreeditStrOnDarwin
        ⟨[⟨AttributeType.TextFormat, 0, 3⟩, ⟨AttributeType.Cursor, 3, 0⟩]⟩ 3 = some r ∧
      0 ≤ r) :=
  ⟨by decide,
    (results_come_from_input
      [⟨AttributeType.TextFormat, 0, 3⟩, ⟨AttributeType.Cursor, 3, 0⟩] 3).2.2.2 (by decide)⟩

/-! ## The result depends on the matching attributes only -/

/-- Two sequences with the same matching attributes, at least one, give the
same last-wins pass, whatever the initial values. -/
theorem foldl_keepMatch_same_filter (p : Attribute → Bool) (f : Attribute → Int)
    (xs ys : List Attribute) (r r2 : Int) (hex : ∃ a ∈ xs, p a = true)
    (hfil : ys.filter p = xs.filter p) :
    ys.foldl (keepMatch p f) r2 = xs.foldl (keepMatch p f) r := by
  have hex2 : ∃ a ∈ ys, p a = true := by
    obtain ⟨a, ha, hpa⟩ := hex
    have hmem : a ∈ ys.filter p := by
      rw [hfil]; exact List.mem_filter.mpr ⟨ha, hpa⟩
    exact ⟨a, (List.mem_filter.mp hmem).1, hpa⟩
  rw [foldl_keepMatch_filter p f ys r2 0 hex2, foldl_keepMatch_filter p f xs r 0 hex, hfil]

/-- Without a match, a non-empty sequence and its (empty) subsequence of
matching attributes have different counts. -/
theorem count_ne_count_filter (p : Attribute → Bool) (xs : List Attribute)
    (hnone : ∀ a ∈ xs, p a = false) (hne : xs ≠ []) :
    (some (xs.length : Int) : Option Int) ≠ some ((xs.filter p).length : Int) := by
  have hnil : xs.filter p = [] :=
    List.filter_eq_nil_iff.mpr (fun a ha => by simp [hnone a ha])
  have hpos : 0 < xs.length := List.length_pos.mpr hne
  rw [hnil]
  intro h
  have h2 : (xs.length : Int) = 0 := by simpa using h
  omega

/-- C13: when a match exists the result depends on the matching attributes
only. For every attribute sequence `xs` and integer `c`, and for each query
(`cursorPosInPreeditStr` with the `Cursor` attributes, the two
selection-length queries with the `TextFormat` attributes meeting their match
condition at `c`): if `xs` holds at least one matching attribute, the result
on `xs` is the result on the subsequence of the matching attributes of `xs`,
and every sequence `ys` with the same subsequence of matching attributes (so
`xs` with non-matching attributes inserted or removed anywhere) has the
result of `xs`. Without a match in a non-empty `xs`, the result on `xs`, its
count, differs from the result on the empty subsequence of its matches. -/
theorem result_depends_on_matches_only (xs : List Attribute) (c : Int) :
    ((∃ a ∈ xs, a.type = AttributeType.Cursor) →
      cursorPosInPreeditStr ⟨xs⟩ = cursorPosInPreeditStr ⟨xs.filter isCursor⟩ ∧
      ∀ ys : List Attribute, ys.filter isCursor = xs.filter isCursor →
        cursorPosInPreeditStr ⟨ys⟩ = cursorPosInPreeditStr ⟨xs⟩) ∧
    ((∃ a ∈ xs, a.type = AttributeType.TextFormat ∧ a.start = c) →
      selectionLengthInPreeditStr ⟨xs⟩ c
        = selectionLengthInPreeditStr ⟨xs.filter (startsAt c)⟩ c ∧
      ∀ ys : List Attribute, ys.filter (startsAt c) = xs.filter (startsAt c) →
        selectionLengthInPreeditStr ⟨ys⟩ c = selectionLengthInPreeditStr ⟨xs⟩ c) ∧
    ((∃ a ∈ xs, a.type = AttributeType.TextFormat ∧
        wrapInt32 (a.start + a.length) = c) →
      selectionLengthInPreeditStrOnDarwin ⟨xs⟩ c
        = selectionLengthInPreeditStrOnDarwin ⟨xs.filter (endsAt c)⟩ c ∧
      ∀ ys : List Attribute, ys.filter (endsAt c) = xs.filter (endsAt c) →
        selectionLengthInPreeditStrOnDarwin ⟨ys⟩ c
          = selectionLengthInPreeditStrOnDarwin ⟨xs⟩ c) ∧
    ((∀ a ∈ xs, a.type ≠ AttributeType.Cursor) → xs ≠ [] →
      cursorPosInPreeditStr ⟨xs⟩ ≠ cursorPosInPreeditStr ⟨xs.filter isCursor⟩) ∧
    ((∀ a ∈ xs, ¬ (a.type = AttributeType.TextFormat ∧ a.start = c)) → xs ≠ [] →
      selectionLengthInPreeditStr ⟨xs⟩ c
        ≠ selectionLengthInPreeditStr ⟨xs.filter (startsAt c)⟩ c) ∧
    ((∀ a ∈ xs, ¬ (a.type = AttributeType.TextFormat ∧
        wrapInt32 (a.start + a.length) = c)) → xs ≠ [] →
      selectionLengthInPreeditStrOnDarwin ⟨xs⟩ c
        ≠ selectionLengthInPreeditStrOnDarwin ⟨xs.filter (endsAt c)⟩ c) := by
  refine ⟨?_, ?_, ?_, ?_, ?_, ?_⟩
  · intro hex
    have hex2 : ∃ a ∈ xs, isCursor a = true := by
      obtain ⟨a, ha, hk⟩ := hex
      exact ⟨a, ha, by simp [isCursor, hk]⟩
    constructor
    · rw [cursorPosInPreeditStr_eq_foldl, cursorPosInPreeditStr_eq_foldl]
      exact congrArg some (foldl_keepMatch_filter isCursor _ xs _ _ hex2)
    · intro ys hfil
      rw [cursorPosInPreeditStr_eq_foldl, cursorPosInPreeditStr_eq_foldl]
      exact congrArg some (foldl_keepMatch_same_filter isCursor _ xs ys _ _ hex2 hfil)
  · intro hex
    have hex2 : ∃ a ∈ xs, startsAt c a = true := by
      obtain ⟨a, ha, hk, hs⟩ := hex
      exact ⟨a, ha, by simp [startsAt, hk, hs]⟩
    constructor
    · rw [selectionLengthInPreeditStr_eq_foldl, selectionLengthInPreeditStr_eq_foldl]
      exact congrArg some (foldl_keepMatch_filter (startsAt c) _ xs _ _ hex2)
    · intro ys hfil
      rw [selectionLengthInPreeditStr_eq_foldl, selectionLengthInPreeditStr_eq_foldl]
      exact congrArg some
        (foldl_keepMatch_same_filter (startsAt c) _ xs ys _ _ hex2 hfil)
  · intro hex
    have hex2 : ∃ a ∈ xs, endsAt c a = true := by
      obtain ⟨a, ha, hk, hs⟩ := hex
      exact ⟨a, ha, by simp [endsAt, hk, hs]⟩
    constructor
    · rw [selectionLengthInPreeditStrOnDarwin_eq_foldl,
        selectionLengthInPreeditStrOnDarwin_eq_foldl]
      exact congrArg some (foldl_keepMatch_filter (endsAt c) _ xs _ _ hex2)
    · intro ys hfil
      rw [selectionLengthInPreeditStrOnDarwin_eq_foldl,
        selectionLengthInPreeditStrOnDarwin_eq_foldl]
      exact congrArg some
        (foldl_keepMatch_same_filter (endsAt c) _ xs ys _ _ hex2 hfil)
  · intro hnone hne
    have hno : ∀ a ∈ xs, isCursor a = false := fun a ha => by
      simp [isCursor, hnone a ha]
    have hno2 : ∀ a ∈ xs.filter isCursor, isCursor a = false :=
      fun a ha => hno a (List.mem_filter.mp ha).1
    rw [cursorPosInPreeditStr_eq_foldl, cursorPosInPreeditStr_eq_foldl,
      foldl_keepMatch_of_no_match isCursor _ xs _ hno,
      foldl_keepMatch_of_no_match isCursor _ (xs.filter isCursor) _ hno2]
    exact count_ne_count_filter isCursor xs hno hne
  · intro hnone hne
    have hno : ∀ a ∈ xs, startsAt c a = false := fun a ha => by
      have := hnone a ha
      by_cases hk : a.type = AttributeType.TextFormat
      · have hs : ¬ a.start = c := fun h => this ⟨hk, h⟩
        simp [startsAt, hk, hs]
      · simp [startsAt, hk]
    have hno2 : ∀ a ∈ xs.filter (startsAt c), startsAt c a = false :=
      fun a ha => hno a (List.mem_filter.mp ha).1
    rw [selectionLengthInPreeditStr_eq_foldl, selectionLengthInPreeditStr_eq_foldl,
      foldl_keepMatch_of_no_match (startsAt c) _ xs _ hno,
      foldl_keepMatch_of_no_match (startsAt c) _ (xs.filter (startsAt c)) _ hno2]
    exact count_ne_count_filter (startsAt c) xs hno hne
  · intro hnone hne
    have hno : ∀ a ∈ xs, endsAt c a = false := fun a ha => by
      have := hnone a ha
      by_cases hk : a.type = AttributeType.TextFormat
      · have hs : ¬ wrapInt32 (a.start + a.length) = c := fun h => this ⟨hk, h⟩
        simp [endsAt, hk, hs]
      · simp [endsAt, hk]
    have hno2 : ∀ a ∈ xs.filter (endsAt c), endsAt c a = false :=
      fun a ha => hno a (List.mem_filter.mp ha).1
    rw [selectionLengthInPreeditStrOnDarwin_eq_foldl,
      selectionLengthInPreeditStrOnDarwin_eq_foldl,
      foldl_keepMatch_of_no_match (endsAt c) _ xs _ hno,
      foldl_keepMatch_of_no_match (endsAt c) _ (xs.filter (endsAt c)) _ hno2]
    exact count_ne_count_filter (endsAt c) xs hno hne

/-- On `[{TextFormat, 0, 3}, {Cursor, 3, 0}, {Other 1, 0, 0}, {TextFormat, 1, 2}]`
each query has a match (the cursor query; the selection-length query at 0;
the Darwin query at 3), and its result is its result on the matching
attributes alone. -/
theorem result_depends_on_matches_only_witness :
    cursorPosInPreeditStr
        ⟨[⟨AttributeType.TextFormat, 0, 3⟩, ⟨AttributeType.Cursor, 3, 0⟩,
          ⟨AttributeType.Other 1, 0, 0⟩, ⟨AttributeType.TextFormat, 1, 2⟩]⟩
      = cursorPosInPreeditStr
        ⟨List.filter isCursor
          [⟨AttributeType.TextFormat, 0, 3⟩, ⟨AttributeType.Cursor, 3, 0⟩,
            ⟨AttributeType.Other 1, 0, 0⟩, ⟨AttributeType.TextFormat, 1, 2⟩]⟩ ∧
    selectionLengthInPreeditStr
        ⟨[⟨AttributeType.TextFormat, 0, 3⟩, ⟨AttributeType.Cursor, 3, 0⟩,
          ⟨AttributeType.Other 1, 0, 0⟩, ⟨AttributeType.TextFormat, 1, 2⟩]⟩ 0
      = selectionLengthInPreeditStr
        ⟨List.filter (startsAt 0)
          [⟨AttributeType.TextFormat, 0, 3⟩, ⟨AttributeType.Cursor, 3, 0⟩,
            ⟨AttributeType.Other 1, 0, 0⟩, ⟨AttributeType.TextFormat, 1, 2⟩]⟩ 0 ∧
    selectionLengthInPreeditStrOnDarwin
        ⟨[⟨AttributeType.TextFormat, 0, 3⟩, ⟨AttributeType.Cursor, 3, 0⟩,
          ⟨AttributeType.Other 1, 0, 0⟩, ⟨AttributeType.TextFormat, 1, 2⟩]⟩ 3
      = selectionLengthInPreeditStrOnDarwin
        ⟨List.filter (endsAt 3)
          [⟨AttributeType.TextFormat, 0, 3⟩, ⟨AttributeType.Cursor, 3, 0⟩,
            ⟨AttributeType.Other 1, 0, 0⟩, ⟨AttributeType.TextFormat, 1, 2⟩]⟩ 3 :=
  ⟨((result_depends_on_matches_only
      [⟨AttributeType.TextFormat, 0, 3⟩, ⟨AttributeType.Cursor, 3, 0⟩,
        ⟨AttributeType.Other 1, 0, 0⟩, ⟨AttributeType.TextFormat, 1, 2⟩] 0).1
      (by decide)).1,
   ((result_depends_on_matches_only
      [⟨AttributeType.TextFormat, 0, 3⟩, ⟨AttributeType.Cursor, 3, 0⟩,
        ⟨AttributeType.Other 1, 0, 0⟩, ⟨AttributeType.TextFormat, 1, 2⟩] 0).2.1
      (by decide)).1,
   ((result_depends_on_matches_only
      [⟨AttributeType.TextFormat, 0, 3⟩, ⟨AttributeType.Cursor, 3, 0⟩,
        ⟨AttributeType.Other 1, 0, 0⟩, ⟨AttributeType.TextFormat, 1, 2⟩] 3).2.2.1
      (by decide)).1⟩

/-! ## The 32-bit sum of the Darwin match condition -/

/-- C14: the 32-bit addition of the Darwin match condition produces no false
match. For every attribute sequence whose attributes all have
`0 <= start <= 2^31 - 1` and `0 <= length <= 2^31 - 1`, and every `cursorpos`
with `0 <= cursorpos <= 2^31 - 1`, `selectionLengthInPreeditStrOnDarwin`
(`start + length` a signed 32-bit sum wrapping modulo `2^32`) returns the
value of the same query with `start + length` computed over the unbounded
integers; and a sum of the sequence that overflows wraps to a negative
number, different from `cursorpos`. -/
theorem selectionLengthOnDarwin_wrap_no_false_match (xs : List Attribute) (c : Int)
    (hattrs : ∀ a ∈ xs, 0 ≤ a.start ∧ a.start ≤ 2147483647 ∧
      0 ≤ a.length ∧ a.length ≤ 2147483647)
    (hc0 : 0 ≤ c) (hc : c ≤ 2147483647) :
    selectionLengthInPreeditStrOnDarwin ⟨xs⟩ c
      = selectionLengthInPreeditStrOnDarwinUnbounded ⟨xs⟩ c ∧
    ∀ a ∈ xs, 2147483647 < a.start + a.length →
      wrapInt32 (a.start + a.length) < 0 ∧ wrapInt32 (a.start + a.length) ≠ c := by
  constructor
  · rw [selectionLengthInPreeditStrOnDarwin_eq_foldl,
      selectionLengthInPreeditStrOnDarwinUnbounded_eq_foldl]
    refine congrArg some
      (foldl_keepMatch_congr (endsAt c) (endsAtUnbounded c) Attribute.length xs _ ?_)
    intro a ha
    obtain ⟨hs0, hs, hl0, hl⟩ := hattrs a ha
    have hiff := wrapInt32_add_eq_iff a.start a.length c hs0 hs hl0 hl hc0 hc
    simp only [endsAt, endsAtUnbounded, hiff]
  · intro a ha hover
    obtain ⟨hs0, hs, hl0, hl⟩ := hattrs a ha
    have hneg := wrapInt32_add_neg a.start a.length hs0 hs hl0 hl hover
    exact ⟨hneg, by omega⟩

/-- On `[{TextFormat, 2147483647, 2}, {TextFormat, 1, 2}]` at `cursorpos = 3`,
where the sum of the first attribute overflows (it wraps to `-2147483647`),
the two computations agree: both return 2. -/
theorem selectionLengthOnDarwin_wrap_no_false_match_witness :
    (∀ a ∈ ([⟨AttributeType.TextFormat, 2147483647, 2⟩, ⟨AttributeType.TextFormat, 1, 2⟩] :
        List Attribute),
      0 ≤ a.start ∧ a.start ≤ 2147483647 ∧ 0 ≤ a.length ∧ a.length ≤ 2147483647) ∧
    selectionLengthInPreeditStrOnDarwin
        ⟨[⟨AttributeType.TextFormat, 2147483647, 2⟩, ⟨AttributeType.TextFormat, 1, 2⟩]⟩ 3
      = selectionLengthInPreeditStrOnDarwinUnbounded
        ⟨[⟨AttributeType.TextFormat, 2147483647, 2⟩, ⟨AttributeType.TextFormat, 1, 2⟩]⟩ 3 :=
  ⟨by decide,
    (selectionLengthOnDarwin_wrap_no_false_match
      [⟨AttributeType.TextFormat, 2147483647, 2⟩, ⟨AttributeType.TextFormat, 1, 2⟩] 3
      (by decide) (by decide) (by decide)).1⟩

end HandleIme
